import Mathlib

/-!
Shallow embedding of the mediator library (pkg/mediator/mediator.go, the Redis
event-store extension, and the PostgreSQL event-store extension), together with
proofs of the behavioural claims about it.

Modelling conventions:
* A Go `error` value is `Option String` (its message; `none` is the nil error).
* Handlers and the attached event store may have external effects; these are
  modelled by explicit state passing through a state type `σ`.
* The event payload is an uninterpreted type parameter `π` (Go `interface`
  values are transported, never inspected, by the mediator and the stores).
* `time.Now().UTC()` is modelled by a monotone counter carried in the backend
  state (`now`, in UnixNano units): each store call reads the clock and the
  clock then advances, reflecting that successive wall-clock readings taken by
  the store are strictly increasing.
* JSON round-tripping of the record written by the stores is modelled as the
  identity on a structured record (the stores serialize the record, write it,
  and deserialize it back unchanged on reads).
-/

/-! ## Definitions -/

/-- Lookup in an association list; models Go map indexing `m[k]` together with
its `ok` flag (`none` = key absent). -/
def mapLookup : List (String × α) → String → Option α
  | [], _ => none
  | (k, v) :: rest, key => if k = key then some v else mapLookup rest key

/-- Overwrite-or-append update; models Redis `SET` and Go map assignment. -/
def mapSet : List (String × α) → String → α → List (String × α)
  | [], key, v => [(key, v)]
  | (k, w) :: rest, key, v =>
    if k = key then (key, v) :: rest else (k, w) :: mapSet rest key v

/-- Remove a key; models Redis `DEL` (and TTL expiry of a key). -/
def mapErase : List (String × α) → String → List (String × α)
  | [], _ => []
  | (k, w) :: rest, key =>
    if k = key then mapErase rest key else (k, w) :: mapErase rest key

/-- Append one element to the sequence stored at a key, creating the entry if
absent; models both Go `m[k] = append(m[k], v)` and Redis `RPUSH`. -/
def mapAppend : List (String × List α) → String → α → List (String × List α)
  | [], key, v => [(key, [v])]
  | (k, vs) :: rest, key, v =>
    if k = key then (key, vs ++ [v]) :: rest else (k, vs) :: mapAppend rest key v

/-- The sequence stored at a key, empty when the key is absent; models Redis
`LRANGE key 0 -1` on a possibly missing list key. -/
def listGet (lists : List (String × List α)) (key : String) : List α :=
  (mapLookup lists key).getD []

/-- Space-joined rendering of the elements of a slice, as Go `fmt`'s `%v` does
inside the brackets. -/
def joinSpace : List String → String
  | [] => ""
  | [a] => a
  | a :: rest => a ++ " " ++ joinSpace rest

/-- Go `fmt.Sprintf("%v", errs)` for a non-nil slice of errors: the messages,
space-separated, in brackets. -/
def formatErrorList (errs : List String) : String :=
  "[" ++ joinSpace errs ++ "]"

/-- `StrContains hay needle`: the text of `needle` occurs contiguously inside
`hay` (Go `strings.Contains`). -/
def StrContains (hay needle : String) : Prop :=
  needle.data <:+: hay.data

/-- `type Event struct` from mediator.go: a name plus an uninterpreted payload. -/
structure Event (π : Type) where
  name : String
  payload : π
deriving DecidableEq

/-- `type EventHandler func(ctx, Event) error`: a handler acts on the outside
world (state `σ`) and returns a nil-or-error result. -/
abbrev EventHandler (σ π : Type) := σ → Event π → σ × Option String

/-- A record handed back by `EventStore.GetEvents` (Go
`map[string]interface` with the name, payload and timestamp fields). -/
structure EventRecord (π : Type) where
  name : String
  payload : π
  timestamp : Nat
deriving DecidableEq

/-- The `EventStore` interface from pkg/mediator/event_store.go, as a record of
three state-passing operations. -/
structure EventStoreOps (σ π : Type) where
  StoreEvent : σ → Event π → σ × Option String
  GetEvents : σ → String → Int → σ × Except String (List (EventRecord π))
  ClearEvents : σ → String → σ × Option String

/-- `type Mediator struct`: the subscriber registry (Go
`map[string][]EventHandler`, insertion-ordered per name) plus the optional
attached event store. -/
structure Mediator (σ π : Type) where
  subscribers : List (String × List (EventHandler σ π))
  eventStore : Option (EventStoreOps σ π)

/-- `Mediator.Subscribe`: append the handler to the ordered list for the name. -/
def Mediator.Subscribe (m : Mediator σ π) (eventName : String)
    (handler : EventHandler σ π) : Mediator σ π :=
  ⟨mapAppend m.subscribers eventName handler, m.eventStore⟩

/-- `Mediator.SetEventStore` (a `none` store disables persistence). -/
def Mediator.SetEventStore (m : Mediator σ π) (store : Option (EventStoreOps σ π)) :
    Mediator σ π :=
  ⟨m.subscribers, store⟩

/-- The handler loop inside `Mediator.Publish`: invoke every handler in order,
threading the world state through, collecting the non-nil errors in invocation
order. No handler result stops the loop. -/
def runHandlers : List (EventHandler σ π) → σ → Event π → σ × List String
  | [], s, _ => (s, [])
  | h :: rest, s, e =>
    match h s e with
    | (s1, none) => runHandlers rest s1 e
    | (s1, some msg) =>
      match runHandlers rest s1 e with
      | (s2, errs) => (s2, msg :: errs)

/-- `Mediator.Publish`: look up the handlers for the event name (failing with
the "no handlers" error when the name is absent from the registry), run them
all, then — when a store is attached — attempt to persist the event, appending
a wrapped persistence error to the same list, and finally fail with the
aggregate error exactly when the list is non-empty. -/
def Mediator.Publish (m : Mediator σ π) (s : σ) (e : Event π) : σ × Option String :=
  match mapLookup m.subscribers e.name with
  | none => (s, some ("no handlers for event: " ++ e.name))
  | some handlers =>
    let r := runHandlers handlers s e
    let r2 := match m.eventStore with
      | none => r
      | some store =>
        match store.StoreEvent r.1 e with
        | (s1, none) => (s1, r.2)
        | (s1, some msg) => (s1, r.2 ++ ["failed to store event: " ++ msg])
    if r2.2.isEmpty then (r2.1, none)
    else (r2.1, some ("errors in event handlers: " ++ formatErrorList r2.2))

/-- The combined error list that one `Publish` call accumulates: every handler
error in invocation order, then the wrapped store error when the attached
store's `StoreEvent` fails. -/
def combinedErrors (m : Mediator σ π) (s : σ) (e : Event π) : List String :=
  match mapLookup m.subscribers e.name with
  | none => []
  | some handlers =>
    let r := runHandlers handlers s e
    match m.eventStore with
    | none => r.2
    | some store =>
      match store.StoreEvent r.1 e with
      | (_, none) => r.2
      | (_, some msg) => r.2 ++ ["failed to store event: " ++ msg]

/-- `Mediator.GetEvents`: pass-through to the attached store, failing when no
store is configured. -/
def Mediator.GetEvents (m : Mediator σ π) (s : σ) (eventName : String)
    (limit : Int) : σ × Except String (List (EventRecord π)) :=
  match m.eventStore with
  | none => (s, .error "no event store configured")
  | some store => store.GetEvents s eventName limit

/-- `Mediator.ClearEvents`: pass-through to the attached store, failing when no
store is configured. -/
def Mediator.ClearEvents (m : Mediator σ π) (s : σ) (eventName : String) :
    σ × Option String :=
  match m.eventStore with
  | none => (s, some "no event store configured")
  | some store => store.ClearEvents s eventName

namespace Redis

/-- `type Config struct` for the Redis store. `Prefix` is a Lean keyword, so the
field is named `pfx`; `EventTTL` is in nanoseconds. -/
structure Config where
  pfx : String
  EventTTL : Nat
  MaxEventsPerType : Int
deriving DecidableEq

/-- `DefaultConfig()`: prefix "mediator:events", TTL 24h, cap 1000. -/
def DefaultConfig : Config :=
  ⟨"mediator:events", 24 * 60 * 60 * 1000000000, 1000⟩

/-- `type EventStore struct`: the retained configuration is only the prefix
(the Redis client is the external state, modelled by `RedisState`). -/
structure EventStore where
  pfx : String
deriving DecidableEq

/-- `NewEventStore`: default the prefix when empty; the rest of the supplied
configuration is not retained. -/
def NewEventStore (config : Config) : EventStore :=
  ⟨if config.pfx = "" then DefaultConfig.pfx else config.pfx⟩

/-- The Redis server state: the string keyspace (each stored value is the
serialized event record, kept with the TTL it was SET with) and the list
keyspace, plus the UnixNano clock. -/
structure RedisState (π : Type) where
  kv : List (String × (EventRecord π × Nat))
  lists : List (String × List String)
  now : Nat
deriving DecidableEq

/-- An empty Redis keyspace with the clock at `t0`. -/
def emptyState (t0 : Nat) : RedisState π := ⟨[], [], t0⟩

/-- The per-event key `fmt.Sprintf("%s:%s:%d", prefix, name, timestamp.UnixNano())`. -/
def tsKey (pfx name : String) (ts : Nat) : String :=
  pfx ++ ":" ++ name ++ ":" ++ Nat.repr ts

/-- The timeline list key `fmt.Sprintf("%s:%s:timeline", prefix, name)`. -/
def timelineKey (pfx name : String) : String :=
  pfx ++ ":" ++ name ++ ":timeline"

/-- `EventStore.StoreEvent`: serialize the name/payload/timestamp record, `SET`
it under the timestamped key with the package-default TTL, and `RPUSH` the key
onto the timeline list. -/
def EventStore.StoreEvent (st : EventStore) (s : RedisState π) (e : Event π) :
    RedisState π × Option String :=
  let ts := s.now
  let record : EventRecord π := ⟨e.name, e.payload, ts⟩
  let key := tsKey st.pfx e.name ts
  let kv1 := mapSet s.kv key (record, DefaultConfig.EventTTL)
  let lists1 := mapAppend s.lists (timelineKey st.pfx e.name) key
  (⟨kv1, lists1, s.now + 1⟩, none)

/-- `EventStore.GetEvents`: default the limit to the package-default cap when
non-positive, take the last `limit` timeline entries (`LRANGE key -limit -1`,
in stored oldest-to-newest order), pipeline a `GET` per key, skip the keys that
are gone (`redis.Nil`), and decode the remaining values. -/
def EventStore.GetEvents (st : EventStore) (s : RedisState π) (eventName : String)
    (limit : Int) : Except String (List (EventRecord π)) :=
  let lim := if limit ≤ 0 then DefaultConfig.MaxEventsPerType else limit
  let keys := listGet s.lists (timelineKey st.pfx eventName)
  let keys := keys.drop (keys.length - lim.toNat)
  if keys.isEmpty then .ok []
  else .ok (keys.filterMap (fun k => (mapLookup s.kv k).map Prod.fst))

/-- `EventStore.ClearEvents`: read the whole timeline, succeed immediately when
it is empty, otherwise `DEL` every referenced key and the timeline key itself. -/
def EventStore.ClearEvents (st : EventStore) (s : RedisState π) (eventName : String) :
    RedisState π × Option String :=
  let listKey := timelineKey st.pfx eventName
  let keys := listGet s.lists listKey
  if keys.isEmpty then (s, none)
  else
    let kv1 := keys.foldl (fun kv k => mapErase kv k) s.kv
    (⟨kv1, mapErase s.lists listKey, s.now⟩, none)

/-- Environment action, not code: the Redis server expires a key, removing it
from the string keyspace while any timeline entries naming it remain. -/
def expireKey (s : RedisState π) (key : String) : RedisState π :=
  ⟨mapErase s.kv key, s.lists, s.now⟩

/-- Fold `StoreEvent` over a sequence of events (the states visited by a run
of publishes). -/
def storeMany (st : EventStore) (s : RedisState π) (es : List (Event π)) : RedisState π :=
  es.foldl (fun s e => (st.StoreEvent s e).1) s

end Redis

namespace Postgres

/-- `type Config struct` for the PostgreSQL store. -/
structure Config where
  pfx : String
  MaxEventsPerType : Int
deriving DecidableEq

/-- `DefaultConfig()`: table name "mediator_events", cap 1000. -/
def DefaultConfig : Config :=
  ⟨"mediator_events", 1000⟩

/-- `type EventStore struct`: the retained configuration is only the prefix
(the `*sql.DB` handle is the external state, modelled by `PgState`). -/
structure EventStore where
  pfx : String
deriving DecidableEq

/-- `NewEventStore`: default the prefix when empty and create the table and
indexes idempotently (`CREATE ... IF NOT EXISTS`; the DDL adds no rows, so it
leaves the row-level state unchanged). The cap from the supplied configuration
is not retained. -/
def NewEventStore (config : Config) : EventStore :=
  ⟨if config.pfx = "" then DefaultConfig.pfx else config.pfx⟩

/-- One row of the events table: `(id serial, event_name, event_data, created_at)`. -/
structure Row (π : Type) where
  id : Nat
  event_name : String
  event_data : EventRecord π
  created_at : Nat
deriving DecidableEq

/-- The database state: the table rows in insertion order, the serial-id
counter, and the UnixNano clock. -/
structure PgState (π : Type) where
  table : List (Row π)
  nextId : Nat
  now : Nat
deriving DecidableEq

/-- A fresh table: no rows, serial ids from 1, clock at `t0`. -/
def emptyState (t0 : Nat) : PgState π := ⟨[], 1, t0⟩

/-- `ORDER BY created_at DESC` as a boolean comparison on rows. -/
def createdDesc (a b : Row π) : Bool := b.created_at ≤ a.created_at

/-- `SELECT ... WHERE event_name = $1 ORDER BY created_at DESC`. -/
def selectDesc (t : List (Row π)) (name : String) : List (Row π) :=
  (t.filter (fun r => r.event_name == name)).mergeSort createdDesc

/-- `EventStore.trimEvents`: delete the rows whose ids lie beyond the most
recent `DefaultConfig().MaxEventsPerType` for the name (`DELETE WHERE id IN
(SELECT id ... ORDER BY created_at DESC OFFSET $2)`). -/
def EventStore.trimEvents (_st : EventStore) (s : PgState π) (name : String) :
    PgState π × Option String :=
  let doomed := ((selectDesc s.table name).drop DefaultConfig.MaxEventsPerType.toNat).map Row.id
  (⟨s.table.filter (fun r => !(doomed.contains r.id)), s.nextId, s.now⟩, none)

/-- `EventStore.StoreEvent`: insert one row carrying the serialized record and
the timestamp, then trim (the package-default cap is positive, so the trim step
runs on every store call). -/
def EventStore.StoreEvent (st : EventStore) (s : PgState π) (e : Event π) :
    PgState π × Option String :=
  let ts := s.now
  let record : EventRecord π := ⟨e.name, e.payload, ts⟩
  let row : Row π := ⟨s.nextId, e.name, record, ts⟩
  let s1 : PgState π := ⟨s.table ++ [row], s.nextId + 1, s.now + 1⟩
  if 0 < DefaultConfig.MaxEventsPerType then st.trimEvents s1 e.name
  else (s1, none)

/-- `EventStore.GetEvents`: default the limit to the package-default cap when
non-positive, then return the `event_data` of the selected rows, newest first,
up to the limit. -/
def EventStore.GetEvents (_st : EventStore) (s : PgState π) (eventName : String)
    (limit : Int) : Except String (List (EventRecord π)) :=
  let lim := if limit ≤ 0 then DefaultConfig.MaxEventsPerType else limit
  .ok (((selectDesc s.table eventName).take lim.toNat).map Row.event_data)

/-- `EventStore.ClearEvents`: `DELETE FROM table WHERE event_name = $1`. -/
def EventStore.ClearEvents (_st : EventStore) (s : PgState π) (eventName : String) :
    PgState π × Option String :=
  (⟨s.table.filter (fun r => !(r.event_name == eventName)), s.nextId, s.now⟩, none)

/-- Fold `StoreEvent` over a sequence of events. -/
def storeMany (st : EventStore) (s : PgState π) (es : List (Event π)) : PgState π :=
  es.foldl (fun s e => (st.StoreEvent s e).1) s

end Postgres

/-- Subscribe a sequence of handlers, in order, all under one name. -/
def subscribeList (m : Mediator σ π) (nm : String) (hs : List (EventHandler σ π)) :
    Mediator σ π :=
  hs.foldl (fun m h => m.Subscribe nm h) m

/-- Subscribe a sequence of (name, handler) pairs, in order. -/
def subscribePairs (m : Mediator σ π) (ps : List (String × EventHandler σ π)) :
    Mediator σ π :=
  ps.foldl (fun m p => m.Subscribe p.1 p.2) m

/-- A handler that records its own index in the invocation log (the world
state) and then returns whatever result `f` dictates for it. -/
def tagHandler (f : Nat → Event π → Option String) (i : Nat) :
    EventHandler (List Nat) π :=
  fun log e => (log ++ [i], f i e)

/-- A concrete mediator for the C2 witness: one failing and one succeeding
handler under "a", plus an attached store whose persist fails. -/
def exampleMediator : Mediator Unit Unit :=
  ⟨[("a", [fun s _ => (s, some "h1 failed"), fun s _ => (s, none)])],
   some ⟨fun s _ => (s, some "redis down"), fun s _ _ => (s, .ok []),
     fun s _ => (s, none)⟩⟩

/-- The numeric value of a decimal digit character. -/
def digitVal (c : Char) : Nat := c.toNat - 48

/-- Read a decimal digit string back into the number it denotes. -/
def digitsVal (l : List Char) : Nat := l.foldl (fun a c => a * 10 + digitVal c) 0

/-- The row created by the i-th store (0-based) of a run that starts on a fresh
table with the clock at `t0`: serial id `i + 1`, the serialized record, and the
insertion timestamp. -/
def Postgres.rowAt (name : String) (f : Nat → π) (t0 i : Nat) : Postgres.Row π :=
  ⟨i + 1, name, ⟨name, f i, t0 + i⟩, t0 + i⟩

/-- The key written by the i-th store (0-based) of a run that starts with the
clock at `t0`. -/
def Redis.keyAt (pfx name : String) (t0 i : Nat) : String :=
  Redis.tsKey pfx name (t0 + i)

/-- The record written by the i-th store of such a run. -/
def Redis.recAt (name : String) (f : Nat → π) (t0 i : Nat) : EventRecord π :=
  ⟨name, f i, t0 + i⟩

/-- The Redis state after `k` stores of events named `name` with payloads
`f 0, ..., f (k-1)` starting from an empty keyspace with the clock at `t0`:
one expiring key per event, and the timeline list holding the keys in
insertion order. -/
def Redis.runState (pfx name : String) (f : Nat → π) (t0 k : Nat) : Redis.RedisState π :=
  ⟨(List.range k).map (fun i =>
      (Redis.keyAt pfx name t0 i, (Redis.recAt name f t0 i, Redis.DefaultConfig.EventTTL))),
   if k = 0 then [] else
     [(Redis.timelineKey pfx name, (List.range k).map (Redis.keyAt pfx name t0))],
   t0 + k⟩

/-- Expire a set of keys (environment action: TTLs elapsing). -/
def Redis.expireKeys (s : Redis.RedisState π) (ks : List String) : Redis.RedisState π :=
  ks.foldl Redis.expireKey s

/-! ## Theorems -/

theorem mapLookup_mapAppend (m : List (String × List α)) (k key : String) (v : α) :
    mapLookup (mapAppend m k v) key =
      if k = key then some ((mapLookup m key).getD [] ++ [v]) else mapLookup m key := by
  induction m with
  | nil => by_cases h : k = key <;> simp [mapAppend, mapLookup, h]
  | cons p rest ih =>
    obtain ⟨k1, vs⟩ := p
    by_cases h1 : k1 = k
    · subst h1
      by_cases h2 : k1 = key <;> simp [mapAppend, mapLookup, h2]
    · by_cases h2 : k1 = key
      · subst h2
        have h3 : k ≠ k1 := fun hc => h1 hc.symm
        simp [mapAppend, mapLookup, h1, h3]
      · simp [mapAppend, mapLookup, h1, h2, ih]

theorem subscribeList_eventStore (m : Mediator σ π) (nm : String)
    (hs : List (EventHandler σ π)) : (subscribeList m nm hs).eventStore = m.eventStore := by
  induction hs generalizing m with
  | nil => rfl
  | cons h t ih => simpa [subscribeList, Mediator.Subscribe] using ih _

theorem subscribePairs_eventStore (m : Mediator σ π)
    (ps : List (String × EventHandler σ π)) :
    (subscribePairs m ps).eventStore = m.eventStore := by
  induction ps generalizing m with
  | nil => rfl
  | cons p t ih => simpa [subscribePairs, Mediator.Subscribe] using ih _

theorem subscribeList_lookup_some (m : Mediator σ π) (nm : String)
    (hs acc : List (EventHandler σ π)) (h : mapLookup m.subscribers nm = some acc) :
    mapLookup (subscribeList m nm hs).subscribers nm = some (acc ++ hs) := by
  induction hs generalizing m acc with
  | nil => simpa [subscribeList] using h
  | cons hd t ih =>
    have step : mapLookup (m.Subscribe nm hd).subscribers nm = some (acc ++ [hd]) := by
      simp [Mediator.Subscribe, mapLookup_mapAppend, h]
    simpa [subscribeList, List.append_assoc] using ih (m.Subscribe nm hd) (acc ++ [hd]) step

theorem subscribeList_lookup_cons (m : Mediator σ π) (nm : String)
    (hd : EventHandler σ π) (t : List (EventHandler σ π))
    (h : mapLookup m.subscribers nm = none) :
    mapLookup (subscribeList m nm (hd :: t)).subscribers nm = some (hd :: t) := by
  have step : mapLookup (m.Subscribe nm hd).subscribers nm = some [hd] := by
    simp [Mediator.Subscribe, mapLookup_mapAppend, h]
  simpa [subscribeList] using subscribeList_lookup_some (m.Subscribe nm hd) nm t [hd] step

theorem subscribePairs_lookup_notMem (m : Mediator σ π)
    (ps : List (String × EventHandler σ π)) (nm : String)
    (h : nm ∉ ps.map Prod.fst) :
    mapLookup (subscribePairs m ps).subscribers nm = mapLookup m.subscribers nm := by
  induction ps generalizing m with
  | nil => rfl
  | cons p t ih =>
    rw [List.map_cons, List.mem_cons, not_or] at h
    have hne : p.1 ≠ nm := fun hc => h.1 hc.symm
    have := ih (m.Subscribe p.1 p.2) h.2
    simpa [subscribePairs, Mediator.Subscribe, mapLookup_mapAppend, hne] using this

theorem runHandlers_tagHandler (f : Nat → Event π → Option String) :
    ∀ (l : List Nat) (log : List Nat) (e : Event π),
      (runHandlers (l.map (tagHandler f)) log e).1 = log ++ l := by
  intro l
  induction l with
  | nil => intro log e; simp [runHandlers]
  | cons i t ih =>
    intro log e
    cases hfe : f i e with
    | none => simpa [runHandlers, tagHandler, hfe] using ih (log ++ [i]) e
    | some msg =>
      have := ih (log ++ [i]) e
      simp only [runHandlers, tagHandler, hfe, List.map_cons]
      rcases hr : runHandlers (t.map (tagHandler f)) (log ++ [i]) e with ⟨s2, errs⟩
      simpa [hr] using this

/-- C1: publishing once to a mediator with `N` handlers subscribed under a name
invokes all `N` handlers exactly once each, synchronously and in subscription
order — the invocation log ends up being exactly `[0, 1, ..., N-1]` — no matter
which handlers fail (`f` freely chooses each handler's error result, so earlier
failures never short-circuit later handlers). -/
theorem publish_invokes_all_handlers_in_order (π : Type) (N : Nat)
    (f : Nat → Event π → Option String) (nm : String) (pl : π) :
    (Mediator.Publish
        (subscribeList (⟨[], none⟩ : Mediator (List Nat) π) nm
          ((List.range N).map (tagHandler f)))
        [] ⟨nm, pl⟩).1 = List.range N := by
  cases hN : List.range N with
  | nil =>
    have : N = 0 := by simpa using congrArg List.length hN
    subst this
    simp [Mediator.Publish, subscribeList, mapLookup]
  | cons i t =>
    have hlook : mapLookup (subscribeList (⟨[], none⟩ : Mediator (List Nat) π) nm
        ((i :: t).map (tagHandler f))).subscribers nm
        = some ((i :: t).map (tagHandler f)) :=
      subscribeList_lookup_cons _ nm _ _ rfl
    have hstore := subscribeList_eventStore (⟨[], none⟩ : Mediator (List Nat) π) nm
      ((i :: t).map (tagHandler f))
    have hrun := runHandlers_tagHandler f (i :: t) [] (⟨nm, pl⟩ : Event π)
    simp only [Mediator.Publish, hlook, hstore]
    split <;> simpa using hrun

/-- C3: publishing to a name with zero registered handlers always fails — never
a no-op — with the "no handlers" error, whose message contains the event name
itself. The mediator may have any store attached and any other subscriptions. -/
theorem publish_no_handlers_fails (σ π : Type)
    (store : Option (EventStoreOps σ π))
    (ps : List (String × EventHandler σ π)) (e : Event π) (s : σ)
    (h : e.name ∉ ps.map Prod.fst) :
    Mediator.Publish (subscribePairs ⟨[], store⟩ ps) s e
        = (s, some ("no handlers for event: " ++ e.name))
      ∧ StrContains ("no handlers for event: " ++ e.name) e.name := by
  have hlook : mapLookup (subscribePairs (⟨[], store⟩ : Mediator σ π) ps).subscribers e.name
      = none := by
    simpa [mapLookup] using subscribePairs_lookup_notMem (⟨[], store⟩ : Mediator σ π) ps e.name h
  constructor
  · simp [Mediator.Publish, hlook]
  · exact ⟨"no handlers for event: ".data, [], by simp⟩

/-- Witness for C3, the spec's concrete scenario: with a handler subscribed to
"sku.created", publishing to "sku.unregistered" fails with an error whose
message contains the literal string "sku.unregistered". -/
theorem publish_no_handlers_fails_witness :
    Mediator.Publish
        (subscribePairs (⟨[], none⟩ : Mediator Unit Unit)
          [("sku.created", fun s _ => (s, none))])
        () ⟨"sku.unregistered", ()⟩
      = ((), some "no handlers for event: sku.unregistered")
      ∧ StrContains "no handlers for event: sku.unregistered" "sku.unregistered" := by
  have := publish_no_handlers_fails Unit Unit none
    [("sku.created", fun s _ => (s, none))] ⟨"sku.unregistered", ()⟩ ()
    (by decide)
  simpa using this

/-- C9: with no store attached, `GetEvents` and `ClearEvents` fail with the
"no event store configured" error; with a store attached, both are pure
pass-throughs returning exactly the attached store's result. -/
theorem mediator_store_passthrough (σ π : Type)
    (subs : List (String × List (EventHandler σ π))) (st : EventStoreOps σ π)
    (s : σ) (nm : String) (limit : Int) :
    Mediator.GetEvents ⟨subs, none⟩ s nm limit = (s, .error "no event store configured")
      ∧ Mediator.ClearEvents (π := π) ⟨subs, none⟩ s nm
        = (s, some "no event store configured")
      ∧ Mediator.GetEvents ⟨subs, some st⟩ s nm limit = st.GetEvents s nm limit
      ∧ Mediator.ClearEvents ⟨subs, some st⟩ s nm = st.ClearEvents s nm :=
  ⟨rfl, rfl, rfl, rfl⟩

/-- C10: when publish takes the "no handlers" exit, the world state is returned
untouched: the attached store's `StoreEvent` is never invoked and nothing is
persisted. -/
theorem publish_no_handlers_skips_store (m : Mediator σ π) (s : σ) (e : Event π)
    (h : mapLookup m.subscribers e.name = none) :
    Mediator.Publish m s e = (s, some ("no handlers for event: " ++ e.name)) := by
  simp [Mediator.Publish, h]

/-- Witness for C10: a mediator with an attached store whose `StoreEvent` logs
every persisted event; publishing an unhandled event leaves the log empty. -/
theorem publish_no_handlers_skips_store_witness :
    Mediator.Publish
        (⟨[], some ⟨fun s e => (s ++ [e], none), fun s _ _ => (s, .ok []),
          fun s _ => (s, none)⟩⟩ : Mediator (List (Event Unit)) Unit)
        [] ⟨"x", ()⟩
      = ([], some "no handlers for event: x") :=
  publish_no_handlers_skips_store _ [] ⟨"x", ()⟩ rfl

theorem strContains_append_left (a m n : String) (h : StrContains m n) :
    StrContains (a ++ m) n := by
  obtain ⟨s, t, hst⟩ := h
  exact ⟨a.data ++ s, t, by rw [String.data_append, ← hst]; simp⟩

theorem strContains_append_right (m b n : String) (h : StrContains m n) :
    StrContains (m ++ b) n := by
  obtain ⟨s, t, hst⟩ := h
  exact ⟨s, t ++ b.data, by rw [String.data_append, ← hst]; simp⟩

theorem strContains_refl (m : String) : StrContains m m :=
  ⟨[], [], by simp⟩

theorem mem_joinSpace (err : String) (errs : List String) (h : err ∈ errs) :
    StrContains (joinSpace errs) err := by
  induction errs with
  | nil => cases h
  | cons a rest ih =>
    cases rest with
    | nil =>
      have : err = a := by simpa using h
      subst this
      exact strContains_refl err
    | cons b t =>
      rcases List.mem_cons.mp h with hea | hmem
      · subst hea
        show StrContains (err ++ " " ++ joinSpace (b :: t)) err
        exact strContains_append_right _ _ _ (strContains_append_right _ _ _ (strContains_refl err))
      · show StrContains (a ++ " " ++ joinSpace (b :: t)) err
        exact strContains_append_left _ _ _ (ih hmem)

theorem aggregate_contains (errs : List String) (err : String) (hmem : err ∈ errs) :
    StrContains ("errors in event handlers: " ++ formatErrorList errs) err := by
  apply strContains_append_left
  show StrContains ("[" ++ joinSpace errs ++ "]") err
  exact strContains_append_right _ _ _ (strContains_append_left _ _ _ (mem_joinSpace err errs hmem))

theorem aggregate_none_iff {α : Type} (x : α) (errs : List String) :
    (if errs.isEmpty then (x, (none : Option String)) else
      (x, some ("errors in event handlers: " ++ formatErrorList errs))).2 = none
    ↔ errs = [] := by
  cases errs <;> simp

theorem aggregate_some_contains {α : Type} (x : α) (errs : List String) (msg : String)
    (hmsg : (if errs.isEmpty then (x, (none : Option String)) else
      (x, some ("errors in event handlers: " ++ formatErrorList errs))).2 = some msg)
    (err : String) (hmem : err ∈ errs) : StrContains msg err := by
  cases errs with
  | nil => cases hmem
  | cons a t =>
    have : msg = "errors in event handlers: " ++ formatErrorList (a :: t) := by
      simpa using hmsg.symm
    subst this
    exact aggregate_contains (a :: t) err hmem

/-- C2: for a publish that finds at least one registered handler, the result is
nil exactly when the combined error list (handler errors in invocation order,
plus the wrapped store error when an attached store's persist fails) is empty;
a non-nil result's message contains every individual error's text; and with all
handlers succeeding and no store attached, publish succeeds. -/
theorem publish_error_aggregation (σ π : Type) (m : Mediator σ π) (s : σ)
    (e : Event π) (h : EventHandler σ π) (hs : List (EventHandler σ π))
    (hL : mapLookup m.subscribers e.name = some (h :: hs)) :
    ((Mediator.Publish m s e).2 = none ↔ combinedErrors m s e = [])
    ∧ (∀ msg, (Mediator.Publish m s e).2 = some msg →
        ∀ err ∈ combinedErrors m s e, StrContains msg err)
    ∧ (m.eventStore = none → (runHandlers (h :: hs) s e).2 = [] →
        (Mediator.Publish m s e).2 = none) := by
  rcases hr : runHandlers (h :: hs) s e with ⟨s1, errs⟩
  cases hES : m.eventStore with
  | none =>
    have hP : Mediator.Publish m s e
        = (if errs.isEmpty then (s1, none) else
            (s1, some ("errors in event handlers: " ++ formatErrorList errs))) := by
      simp only [Mediator.Publish, hL, hES, hr]
    have hC : combinedErrors m s e = errs := by
      simp only [combinedErrors, hL, hES, hr]
    refine ⟨?_, ?_, ?_⟩
    · rw [hP, hC]
      exact aggregate_none_iff s1 errs
    · intro msg hmsg err hmem
      rw [hC] at hmem
      rw [hP] at hmsg
      exact aggregate_some_contains s1 errs msg hmsg err hmem
    · intro _ hrun
      have hrun2 : errs = [] := hrun
      rw [hP, hrun2]
      simp
  | some store =>
    rcases hSE : store.StoreEvent s1 e with ⟨s2, oerr⟩
    cases oerr with
    | none =>
      have hP : Mediator.Publish m s e
          = (if errs.isEmpty then (s2, none) else
              (s2, some ("errors in event handlers: " ++ formatErrorList errs))) := by
        simp only [Mediator.Publish, hL, hES, hr, hSE]
      have hC : combinedErrors m s e = errs := by
        simp only [combinedErrors, hL, hES, hr, hSE]
      refine ⟨?_, ?_, ?_⟩
      · rw [hP, hC]
        exact aggregate_none_iff s2 errs
      · intro msg hmsg err hmem
        rw [hC] at hmem
        rw [hP] at hmsg
        exact aggregate_some_contains s2 errs msg hmsg err hmem
      · intro hno
        simp at hno
    | some m2 =>
      have hP : Mediator.Publish m s e
          = (if (errs ++ ["failed to store event: " ++ m2]).isEmpty then (s2, none) else
              (s2, some ("errors in event handlers: "
                ++ formatErrorList (errs ++ ["failed to store event: " ++ m2])))) := by
        simp only [Mediator.Publish, hL, hES, hr, hSE]
      have hC : combinedErrors m s e = errs ++ ["failed to store event: " ++ m2] := by
        simp only [combinedErrors, hL, hES, hr, hSE]
      refine ⟨?_, ?_, ?_⟩
      · rw [hP, hC]
        exact aggregate_none_iff s2 _
      · intro msg hmsg err hmem
        rw [hC] at hmem
        rw [hP] at hmsg
        exact aggregate_some_contains s2 _ msg hmsg err hmem
      · intro hno
        simp at hno

/-- Witness for C2: one failing handler, one succeeding handler, and an
attached store whose persist also fails; the publish result aggregates both
errors and contains each error's text. -/
theorem publish_error_aggregation_witness :
    ((Mediator.Publish exampleMediator () ⟨"a", ()⟩).2 = none
      ↔ combinedErrors exampleMediator () ⟨"a", ()⟩ = [])
    ∧ (∀ msg, (Mediator.Publish exampleMediator () ⟨"a", ()⟩).2 = some msg →
        ∀ err ∈ combinedErrors exampleMediator () ⟨"a", ()⟩, StrContains msg err)
    ∧ (exampleMediator.eventStore = none →
        (runHandlers [fun s _ => (s, some "h1 failed"), fun s _ => (s, none)]
          () ⟨"a", ()⟩).2 = [] →
        (Mediator.Publish exampleMediator () ⟨"a", ()⟩).2 = none) :=
  publish_error_aggregation Unit Unit exampleMediator () ⟨"a", ()⟩
    (fun s _ => (s, some "h1 failed")) [fun s _ => (s, none)] rfl

theorem digitsVal_append (l : List Char) (c : Char) :
    digitsVal (l ++ [c]) = digitsVal l * 10 + digitVal c := by
  simp [digitsVal]

theorem digitVal_digitChar (r : Nat) (h : r < 10) :
    digitVal (Nat.digitChar r) = r := by
  interval_cases r <;> rfl

theorem toDigitsCore_acc (b : Nat) :
    ∀ (f n : Nat) (ds : List Char),
      Nat.toDigitsCore b f n ds = Nat.toDigitsCore b f n [] ++ ds := by
  intro f
  induction f with
  | zero => intro n ds; simp [Nat.toDigitsCore]
  | succ f ih =>
    intro n ds
    simp only [Nat.toDigitsCore]
    by_cases h : n / b = 0
    · simp [h]
    · rw [if_neg h, if_neg h, ih (n / b) (Nat.digitChar (n % b) :: ds),
        ih (n / b) [Nat.digitChar (n % b)]]
      simp

theorem digitsVal_toDigitsCore :
    ∀ (f n : Nat), n < f → digitsVal (Nat.toDigitsCore 10 f n []) = n := by
  intro f
  induction f with
  | zero => intro n h; omega
  | succ f ih =>
    intro n h
    simp only [Nat.toDigitsCore]
    by_cases h0 : n / 10 = 0
    · rw [if_pos h0]
      have hn : n < 10 := by omega
      have hd : digitsVal [Nat.digitChar (n % 10)] = n % 10 := by
        simp [digitsVal, digitVal_digitChar (n % 10) (Nat.mod_lt n (by norm_num))]
      rw [hd]
      omega
    · rw [if_neg h0, toDigitsCore_acc, digitsVal_append]
      have h1 : n / 10 < f := by omega
      rw [ih (n / 10) h1, digitVal_digitChar _ (Nat.mod_lt n (by norm_num))]
      omega

theorem natRepr_injective : Function.Injective Nat.repr := by
  intro a b h
  have hdata : Nat.toDigits 10 a = Nat.toDigits 10 b := congrArg String.data h
  have ha := digitsVal_toDigitsCore (a + 1) a (Nat.lt_succ_self a)
  have hb := digitsVal_toDigitsCore (b + 1) b (Nat.lt_succ_self b)
  have hv : digitsVal (Nat.toDigits 10 a) = digitsVal (Nat.toDigits 10 b) := by
    rw [hdata]
  rwa [show Nat.toDigits 10 a = Nat.toDigitsCore 10 (a + 1) a [] from rfl,
    show Nat.toDigits 10 b = Nat.toDigitsCore 10 (b + 1) b [] from rfl, ha, hb] at hv

theorem tsKey_inj (pfx name : String) {a b : Nat}
    (h : Redis.tsKey pfx name a = Redis.tsKey pfx name b) : a = b := by
  unfold Redis.tsKey at h
  have hd := congrArg String.data h
  simp only [String.data_append, List.append_assoc] at hd
  have h1 := List.append_cancel_left hd
  have h2 := List.append_cancel_left h1
  have h3 := List.append_cancel_left h2
  have h4 := List.append_cancel_left h3
  exact natRepr_injective (String.ext h4)

theorem perm_strictSorted_eq {α : Type} (f : α → Nat) :
    ∀ (l1 l2 : List α), l1.Perm l2 → l1.Pairwise (fun a b => f b < f a) →
      l2.Pairwise (fun a b => f b < f a) → l1 = l2 := by
  intro l1
  induction l1 with
  | nil =>
    intro l2 hp _ _
    exact (hp.symm.eq_nil).symm
  | cons a t ih =>
    intro l2 hp h1 h2
    cases l2 with
    | nil =>
      have hlen := hp.length_eq
      simp at hlen
    | cons b t2 =>
      have hab : a = b := by
        have haIn : a ∈ b :: t2 := hp.mem_iff.mp (List.mem_cons_self a t)
        rcases List.mem_cons.mp haIn with h | h
        · exact h
        · have hfa : f a < f b := (List.pairwise_cons.mp h2).1 a h
          have hbIn : b ∈ a :: t := hp.symm.mem_iff.mp (List.mem_cons_self b t2)
          rcases List.mem_cons.mp hbIn with hba | hbt
          · exact hba.symm
          · have hfb : f b < f a := (List.pairwise_cons.mp h1).1 b hbt
            omega
      subst hab
      have htail := ih t2 hp.cons_inv (List.pairwise_cons.mp h1).2
        (List.pairwise_cons.mp h2).2
      rw [htail]

theorem createdDesc_trans (a b c : Postgres.Row π) :
    Postgres.createdDesc a b → Postgres.createdDesc b c → Postgres.createdDesc a c := by
  simp only [Postgres.createdDesc, decide_eq_true_eq]
  omega

theorem createdDesc_total (a b : Postgres.Row π) :
    Postgres.createdDesc a b || Postgres.createdDesc b a := by
  simp only [Postgres.createdDesc, Bool.or_eq_true, decide_eq_true_eq]
  omega

/-- On a table whose rows all carry the queried name and whose `created_at`
values strictly increase in insertion order, the `ORDER BY created_at DESC`
query returns exactly the reversed table. -/
theorem selectDesc_ascending (t : List (Postgres.Row π)) (name : String)
    (hname : ∀ r ∈ t, r.event_name = name)
    (hasc : t.Pairwise (fun a b => a.created_at < b.created_at)) :
    Postgres.selectDesc t name = t.reverse := by
  unfold Postgres.selectDesc
  have hfilter : t.filter (fun r => r.event_name == name) = t :=
    List.filter_eq_self.mpr (fun r hr => by simp [hname r hr])
  rw [hfilter]
  have hsorted := List.sorted_mergeSort
    (fun a b c => createdDesc_trans a b c) (fun a b => createdDesc_total a b) t
  have hndt : t.Pairwise (fun a b => a.created_at ≠ b.created_at) :=
    hasc.imp (fun h => Nat.ne_of_lt h)
  have hperm : (t.mergeSort Postgres.createdDesc).Perm t := List.mergeSort_perm t _
  have hndm : (t.mergeSort Postgres.createdDesc).Pairwise
      (fun a b => a.created_at ≠ b.created_at) := by
    have hmap : ((t.mergeSort Postgres.createdDesc).map
        (fun r => r.created_at)).Nodup := by
      have := (hperm.map (fun r => r.created_at)).nodup_iff
      rw [this, List.Nodup, List.pairwise_map]
      exact hndt
    rw [List.Nodup, List.pairwise_map] at hmap
    exact hmap
  apply perm_strictSorted_eq (fun r => r.created_at)
  · exact hperm.trans (List.reverse_perm t).symm
  · refine List.Pairwise.imp₂ ?_ hsorted hndm
    intro a b hle hne
    simp only [Postgres.createdDesc, decide_eq_true_eq] at hle
    omega
  · rw [List.pairwise_reverse]
    exact hasc

/-- Deleting by an id-list covering exactly the ids of the prefix `A` of a
table with no duplicate ids removes exactly `A`. -/
theorem filter_id_eq (A B : List (Postgres.Row π)) (D : List Nat)
    (hD : ∀ x, x ∈ D ↔ x ∈ A.map Postgres.Row.id)
    (hnd : ((A ++ B).map Postgres.Row.id).Nodup) :
    (A ++ B).filter (fun r => !(D.contains r.id)) = B := by
  rw [List.filter_append]
  have hA : A.filter (fun r => !(D.contains r.id)) = [] := by
    rw [List.filter_eq_nil_iff]
    intro a ha
    simp only [List.contains, Bool.not_eq_true', Bool.not_eq_false]
    rw [List.elem_iff, hD]
    exact List.mem_map_of_mem _ ha
  have hB : B.filter (fun r => !(D.contains r.id)) = B := by
    rw [List.filter_eq_self]
    intro b hb
    rw [List.map_append] at hnd
    have hdisj := (List.nodup_append.mp hnd).2.2
    have hnotin : b.id ∉ A.map Postgres.Row.id :=
      fun hmem => hdisj hmem (List.mem_map_of_mem _ hb)
    simp only [List.contains, Bool.not_eq_true']
    rw [Bool.eq_false_iff]
    intro hc
    exact hnotin ((hD b.id).mp (List.elem_iff.mp hc))
  rw [hA, hB, List.nil_append]

theorem pgCap_toNat : Postgres.DefaultConfig.MaxEventsPerType.toNat = 1000 := rfl

theorem Postgres.storeEvent_append_trim (st : Postgres.EventStore) (name : String)
    (f : Nat → π) (t0 k : Nat) :
    Postgres.EventStore.StoreEvent st
      ⟨((List.range k).drop (k - 1000)).map (Postgres.rowAt name f t0), k + 1, t0 + k⟩
      ⟨name, f k⟩
    = (⟨((List.range (k + 1)).drop (k + 1 - 1000)).map (Postgres.rowAt name f t0),
        k + 1 + 1, t0 + (k + 1)⟩, none) := by
  have hidx : (List.range (k + 1)).drop (k - 1000)
      = (List.range k).drop (k - 1000) ++ [k] := by
    rw [List.range_succ, List.drop_append_of_le_length (by simp)]
  set T : List (Postgres.Row π) :=
    ((List.range (k + 1)).drop (k - 1000)).map (Postgres.rowAt name f t0) with hT
  have happ : ((List.range k).drop (k - 1000)).map (Postgres.rowAt name f t0)
      ++ [Postgres.rowAt name f t0 k] = T := by
    rw [hT, hidx, List.map_append]
    rfl
  have hname : ∀ r ∈ T, r.event_name = name := by
    intro r hr
    rw [hT] at hr
    obtain ⟨i, _, rfl⟩ := List.mem_map.mp hr
    rfl
  have hascIdx : ((List.range (k + 1)).drop (k - 1000)).Pairwise (· < ·) :=
    List.Pairwise.sublist (List.drop_sublist _ _) (List.pairwise_lt_range (k + 1))
  have hasc : T.Pairwise (fun a b => a.created_at < b.created_at) := by
    rw [hT, List.pairwise_map]
    exact hascIdx.imp (fun h => by simpa [Postgres.rowAt] using h)
  have hndIdx : ((List.range (k + 1)).drop (k - 1000)).Nodup :=
    List.Nodup.sublist (List.drop_sublist _ _) (List.nodup_range (k + 1))
  have hnd : (T.map Postgres.Row.id).Nodup := by
    rw [hT, List.map_map]
    exact hndIdx.map (fun a b hab => by simpa [Postgres.rowAt] using hab)
  have hsel : Postgres.selectDesc T name = T.reverse := selectDesc_ascending T name hname hasc
  have hlen : T.length = (k + 1) - (k - 1000) := by
    rw [hT, List.length_map, List.length_drop, List.length_range]
  have hdropRev : T.reverse.drop 1000 = (T.take (T.length - 1000)).reverse :=
    List.drop_reverse
  have hfilter : T.filter
      (fun r => !((((T.take (T.length - 1000)).reverse).map Postgres.Row.id).contains r.id))
      = T.drop (T.length - 1000) := by
    conv_lhs => rw [← List.take_append_drop (T.length - 1000) T]
    rw [filter_id_eq]
    · intro x
      simp
    · rw [List.take_append_drop]
      exact hnd
  have htail : T.drop (T.length - 1000)
      = ((List.range (k + 1)).drop (k + 1 - 1000)).map (Postgres.rowAt name f t0) := by
    rw [hlen, hT, ← List.map_drop, List.drop_drop]
    have harith : k - 1000 + (k + 1 - (k - 1000) - 1000) = k + 1 - 1000 := by omega
    rw [harith]
  unfold Postgres.EventStore.StoreEvent
  rw [if_pos (by decide : (0 : Int) < Postgres.DefaultConfig.MaxEventsPerType)]
  unfold Postgres.EventStore.trimEvents
  simp only [pgCap_toNat]
  have hrow : (⟨k + 1, name, ⟨name, f k, t0 + k⟩, t0 + k⟩ : Postgres.Row π)
      = Postgres.rowAt name f t0 k := rfl
  simp only [hrow, happ, hsel, hdropRev, hfilter, htail, Nat.add_assoc]

/-- The PostgreSQL state after `k` stores of events named `name` with payloads
`f 0, ..., f (k-1)` on a fresh table: exactly the most recent
`min k 1000` rows remain, in insertion order. -/
theorem Postgres.storeMany_table (st : Postgres.EventStore) (name : String)
    (f : Nat → π) (t0 : Nat) :
    ∀ k, Postgres.storeMany st (Postgres.emptyState t0)
        ((List.range k).map (fun i => ⟨name, f i⟩))
      = ⟨((List.range k).drop (k - 1000)).map (Postgres.rowAt name f t0),
          k + 1, t0 + k⟩ := by
  intro k
  induction k with
  | zero => rfl
  | succ k ih =>
    have hes : (List.range (k + 1)).map (fun i => (⟨name, f i⟩ : Event π))
        = ((List.range k).map (fun i => ⟨name, f i⟩)) ++ [⟨name, f k⟩] := by
      rw [List.range_succ, List.map_append]
      rfl
    have hfold : Postgres.storeMany st (Postgres.emptyState t0)
        (((List.range k).map (fun i => ⟨name, f i⟩)) ++ [⟨name, f k⟩])
        = (Postgres.EventStore.StoreEvent st
            (Postgres.storeMany st (Postgres.emptyState t0)
              ((List.range k).map (fun i => ⟨name, f i⟩))) ⟨name, f k⟩).1 := by
      simp [Postgres.storeMany]
    rw [hes, hfold, ih, Postgres.storeEvent_append_trim]

theorem mapLookup_eq_none (m : List (String × α)) (key : String)
    (h : ∀ p ∈ m, p.1 ≠ key) : mapLookup m key = none := by
  induction m with
  | nil => rfl
  | cons p rest ih =>
    rcases p with ⟨k, v⟩
    have hk : k ≠ key := h (k, v) (List.mem_cons_self _ _)
    simp only [mapLookup, if_neg hk]
    exact ih (fun q hq => h q (List.mem_cons_of_mem _ hq))

theorem mapLookup_append_left (m1 m2 : List (String × α)) (key : String) (v : α)
    (h : mapLookup m1 key = some v) : mapLookup (m1 ++ m2) key = some v := by
  induction m1 with
  | nil => cases h
  | cons p rest ih =>
    rcases p with ⟨k, w⟩
    by_cases hk : k = key
    · simp only [mapLookup, if_pos hk] at h ⊢
      exact h
    · simp only [mapLookup, if_neg hk] at h ⊢
      exact ih h

theorem mapLookup_append_right (m1 m2 : List (String × α)) (key : String)
    (h : mapLookup m1 key = none) : mapLookup (m1 ++ m2) key = mapLookup m2 key := by
  induction m1 with
  | nil => rfl
  | cons p rest ih =>
    rcases p with ⟨k, w⟩
    by_cases hk : k = key
    · simp only [mapLookup, if_pos hk] at h
      cases h
    · simp only [mapLookup, if_neg hk] at h ⊢
      exact ih h

theorem mapSet_notMem (m : List (String × α)) (key : String) (v : α)
    (h : ∀ p ∈ m, p.1 ≠ key) : mapSet m key v = m ++ [(key, v)] := by
  induction m with
  | nil => rfl
  | cons p rest ih =>
    rcases p with ⟨k, w⟩
    have hk : k ≠ key := h (k, w) (List.mem_cons_self _ _)
    simp only [mapSet, if_neg hk, List.cons_append, List.cons.injEq, true_and]
    exact ih (fun q hq => h q (List.mem_cons_of_mem _ hq))

theorem mapLookup_mapSet_self (m : List (String × α)) (key : String) (v : α) :
    mapLookup (mapSet m key v) key = some v := by
  induction m with
  | nil => simp [mapSet, mapLookup]
  | cons p rest ih =>
    rcases p with ⟨k, w⟩
    by_cases hk : k = key
    · simp [mapSet, mapLookup, hk]
    · simp [mapSet, mapLookup, hk, ih]

theorem mapErase_lookup (m : List (String × α)) (key key2 : String) :
    mapLookup (mapErase m key) key2
      = if key2 = key then none else mapLookup m key2 := by
  induction m with
  | nil => simp [mapErase, mapLookup]
  | cons p rest ih =>
    rcases p with ⟨k, w⟩
    by_cases hk : k = key
    · have he : mapErase ((k, w) :: rest) key = mapErase rest key := by
        simp [mapErase, hk]
      rw [he, ih]
      by_cases h2 : key2 = key
      · rw [if_pos h2, if_pos h2]
      · rw [if_neg h2, if_neg h2]
        have hk2 : k ≠ key2 := by
          rw [hk]
          exact fun hc => h2 hc.symm
        simp [mapLookup, hk2]
    · have he : mapErase ((k, w) :: rest) key = (k, w) :: mapErase rest key := by
        simp [mapErase, hk]
      rw [he]
      by_cases h2 : key2 = k
      · subst h2
        have hnk : ¬ key2 = key := fun hc => hk hc
        simp [mapLookup, hnk]
      · have hk2 : k ≠ key2 := fun hc => h2 hc.symm
        simp [mapLookup, hk2, ih]

theorem mapLookup_map_range {α : Type} (g : Nat → String) (v : Nat → α)
    (hg : ∀ a b, g a = g b → a = b) :
    ∀ (k j : Nat), j < k →
      mapLookup ((List.range k).map (fun i => (g i, v i))) (g j) = some (v j) := by
  intro k
  induction k with
  | zero => intro j hj; omega
  | succ k ih =>
    intro j hj
    rw [List.range_succ, List.map_append]
    by_cases hjk : j < k
    · exact mapLookup_append_left _ _ _ _ (ih j hjk)
    · have hjek : j = k := by omega
      subst hjek
      rw [mapLookup_append_right _ _ _ (mapLookup_eq_none _ _ ?_)]
      · simp [mapLookup]
      · intro p hp
        obtain ⟨i, hi, rfl⟩ := List.mem_map.mp hp
        intro hc
        have := hg i j hc
        rw [List.mem_range] at hi
        omega

theorem filterMap_map_eq_map_filter {α β γ : Type} (h : α → β) (g : β → Option γ)
    (fn : α → γ) (p : α → Bool) :
    ∀ (l : List α), (∀ x ∈ l, g (h x) = if p x then some (fn x) else none) →
      (l.map h).filterMap g = (l.filter p).map fn := by
  intro l
  induction l with
  | nil => intro _; rfl
  | cons a t ih =>
    intro hx
    have ha := hx a (List.mem_cons_self _ _)
    have ht := ih (fun x hxm => hx x (List.mem_cons_of_mem _ hxm))
    by_cases hp : p a
    · rw [if_pos hp] at ha
      simp [List.filterMap_cons, ha, List.filter_cons, hp, ht]
    · rw [if_neg hp] at ha
      simp [List.filterMap_cons, ha, List.filter_cons, hp, ht]

theorem Redis.keyAt_inj (pfx name : String) (t0 : Nat) :
    ∀ a b, Redis.keyAt pfx name t0 a = Redis.keyAt pfx name t0 b → a = b := by
  intro a b h
  have := tsKey_inj pfx name h
  omega

theorem Redis.storeEvent_append (st : Redis.EventStore) (name : String)
    (f : Nat → π) (t0 k : Nat) :
    Redis.EventStore.StoreEvent st (Redis.runState st.pfx name f t0 k) ⟨name, f k⟩
      = (Redis.runState st.pfx name f t0 (k + 1), none) := by
  have hkv : mapSet
      ((List.range k).map (fun i =>
        (Redis.keyAt st.pfx name t0 i, (Redis.recAt name f t0 i, Redis.DefaultConfig.EventTTL))))
      (Redis.keyAt st.pfx name t0 k)
      (Redis.recAt name f t0 k, Redis.DefaultConfig.EventTTL)
      = (List.range (k + 1)).map (fun i =>
        (Redis.keyAt st.pfx name t0 i, (Redis.recAt name f t0 i, Redis.DefaultConfig.EventTTL))) := by
    rw [mapSet_notMem]
    · rw [List.range_succ, List.map_append]
      rfl
    · intro p hp
      obtain ⟨i, hi, rfl⟩ := List.mem_map.mp hp
      intro hc
      have := Redis.keyAt_inj st.pfx name t0 i k hc
      rw [List.mem_range] at hi
      omega
  have hlists : mapAppend (Redis.runState (π := π) st.pfx name f t0 k).lists
      (Redis.timelineKey st.pfx name) (Redis.keyAt st.pfx name t0 k)
      = [(Redis.timelineKey st.pfx name, (List.range (k + 1)).map (Redis.keyAt st.pfx name t0))] := by
    cases k with
    | zero => rfl
    | succ n =>
      have hL : (Redis.runState (π := π) st.pfx name f t0 (n + 1)).lists
          = [(Redis.timelineKey st.pfx name,
              (List.range (n + 1)).map (Redis.keyAt st.pfx name t0))] := rfl
      rw [hL]
      simp only [mapAppend, if_true]
      have hr : (List.range (n + 1 + 1)).map (Redis.keyAt st.pfx name t0)
          = (List.range (n + 1)).map (Redis.keyAt st.pfx name t0)
            ++ [Redis.keyAt st.pfx name t0 (n + 1)] := by
        rw [List.range_succ, List.map_append]
        rfl
      rw [hr]
  have hgoal : Redis.EventStore.StoreEvent st (Redis.runState st.pfx name f t0 k)
      (⟨name, f k⟩ : Event π)
      = (⟨mapSet ((List.range k).map (fun i =>
            (Redis.keyAt st.pfx name t0 i, (Redis.recAt name f t0 i, Redis.DefaultConfig.EventTTL))))
            (Redis.keyAt st.pfx name t0 k)
            (Redis.recAt name f t0 k, Redis.DefaultConfig.EventTTL),
          mapAppend (Redis.runState (π := π) st.pfx name f t0 k).lists
            (Redis.timelineKey st.pfx name) (Redis.keyAt st.pfx name t0 k),
          t0 + k + 1⟩, none) := rfl
  rw [hgoal, hkv, hlists]
  rfl

theorem Redis.storeMany_keyspace (st : Redis.EventStore) (name : String)
    (f : Nat → π) (t0 : Nat) :
    ∀ k, Redis.storeMany st (Redis.emptyState t0)
        ((List.range k).map (fun i => ⟨name, f i⟩))
      = Redis.runState st.pfx name f t0 k := by
  intro k
  induction k with
  | zero => rfl
  | succ k ih =>
    have hes : (List.range (k + 1)).map (fun i => (⟨name, f i⟩ : Event π))
        = ((List.range k).map (fun i => ⟨name, f i⟩)) ++ [⟨name, f k⟩] := by
      rw [List.range_succ, List.map_append]
      rfl
    have hfold : Redis.storeMany st (Redis.emptyState t0)
        (((List.range k).map (fun i => ⟨name, f i⟩)) ++ [⟨name, f k⟩])
        = (Redis.EventStore.StoreEvent st
            (Redis.storeMany st (Redis.emptyState t0)
              ((List.range k).map (fun i => ⟨name, f i⟩))) ⟨name, f k⟩).1 := by
      simp [Redis.storeMany]
    rw [hes, hfold, ih, Redis.storeEvent_append]

theorem mapErase_foldl_lookup (ks : List String) :
    ∀ (kv : List (String × α)) (key : String),
      mapLookup (ks.foldl mapErase kv) key
        = if key ∈ ks then none else mapLookup kv key := by
  induction ks with
  | nil => intro kv key; simp
  | cons a t ih =>
    intro kv key
    rw [List.foldl_cons, ih, mapErase_lookup]
    by_cases ha : key = a
    · simp [ha]
    · by_cases htm : key ∈ t <;> simp [ha, htm]

theorem Redis.expireKeys_state (s : Redis.RedisState π) (ks : List String) :
    Redis.expireKeys s ks = ⟨ks.foldl mapErase s.kv, s.lists, s.now⟩ := by
  unfold Redis.expireKeys
  induction ks generalizing s with
  | nil => rfl
  | cons a t ih =>
    rw [List.foldl_cons, List.foldl_cons]
    exact ih ⟨mapErase s.kv a, s.lists, s.now⟩

/-- `GetEvents` on the state left by a run of `k` stores, after an arbitrary
set of per-event keys has expired (`E` is the set of expired store indices):
the timeline window is the whole run, the expired entries are skipped, and the
remaining records come back in timeline (insertion) order with no error. -/
theorem Redis.getEvents_expired (st : Redis.EventStore) (name : String)
    (f : Nat → π) (t0 k : Nat) (E : List Nat) :
    Redis.EventStore.GetEvents st
      (Redis.expireKeys (Redis.runState st.pfx name f t0 k)
        (E.map (Redis.keyAt st.pfx name t0)))
      name (k : Int)
    = .ok (((List.range k).filter (fun j => !(E.contains j))).map
        (Redis.recAt name f t0)) := by
  rw [Redis.expireKeys_state]
  cases k with
  | zero =>
    simp [Redis.EventStore.GetEvents, Redis.runState, listGet, mapLookup]
  | succ n =>
    unfold Redis.EventStore.GetEvents
    rw [if_neg (by omega : ¬ ((↑(n + 1) : Int) ≤ 0))]
    have hlg : listGet (Redis.runState (π := π) st.pfx name f t0 (n + 1)).lists
        (Redis.timelineKey st.pfx name)
        = (List.range (n + 1)).map (Redis.keyAt st.pfx name t0) := by
      simp [Redis.runState, listGet, mapLookup]
    simp only [hlg]
    have hlen : (((List.range (n + 1)).map (Redis.keyAt st.pfx name t0)).length
        - ((↑(n + 1) : Int)).toNat) = 0 := by
      simp
    rw [hlen, List.drop_zero]
    rw [if_neg (by simp [List.isEmpty_iff] : ¬ (((List.range (n + 1)).map
      (Redis.keyAt st.pfx name t0)).isEmpty = true))]
    have := filterMap_map_eq_map_filter (Redis.keyAt st.pfx name t0)
      (fun kk => (mapLookup ((E.map (Redis.keyAt st.pfx name t0)).foldl mapErase
        (Redis.runState (π := π) st.pfx name f t0 (n + 1)).kv) kk).map Prod.fst)
      (Redis.recAt name f t0) (fun j => !(E.contains j)) (List.range (n + 1)) ?_
    · rw [this]
    · intro x hx
      dsimp only
      rw [mapErase_foldl_lookup]
      by_cases hmem : Redis.keyAt st.pfx name t0 x ∈ E.map (Redis.keyAt st.pfx name t0)
      · rw [if_pos hmem]
        have hxE : x ∈ E := by
          obtain ⟨e, he, hkey⟩ := List.mem_map.mp hmem
          have := Redis.keyAt_inj st.pfx name t0 e x hkey
          rwa [← this]
        simp [hxE]
      · rw [if_neg hmem]
        have hxE : ¬ x ∈ E := fun hc => hmem (List.mem_map_of_mem _ hc)
        have hlook : mapLookup (Redis.runState (π := π) st.pfx name f t0 (n + 1)).kv
            (Redis.keyAt st.pfx name t0 x)
            = some (Redis.recAt name f t0 x, Redis.DefaultConfig.EventTTL) := by
          have hx1 : x < n + 1 := List.mem_range.mp hx
          exact mapLookup_map_range (Redis.keyAt st.pfx name t0)
            (fun i => (Redis.recAt name f t0 i, Redis.DefaultConfig.EventTTL))
            (Redis.keyAt_inj st.pfx name t0) (n + 1) x hx1
        rw [hlook]
        simp [hxE]

/-- `GetEvents` on the state left by a run of `k` stores with a positive limit
and nothing expired: the last `min limit k` records, in timeline (insertion,
oldest-first) order, with no error. -/
theorem Redis.getEvents_runState (st : Redis.EventStore) (name : String)
    (f : Nat → π) (t0 k : Nat) (limit : Int) (hpos : 0 < limit) :
    Redis.EventStore.GetEvents st (Redis.runState st.pfx name f t0 k) name limit
      = .ok (((List.range k).drop (k - limit.toNat)).map (Redis.recAt name f t0)) := by
  cases k with
  | zero =>
    simp [Redis.EventStore.GetEvents, Redis.runState, listGet, mapLookup]
  | succ n =>
    unfold Redis.EventStore.GetEvents
    rw [if_neg (by omega : ¬ (limit ≤ 0))]
    have hlg : listGet (Redis.runState (π := π) st.pfx name f t0 (n + 1)).lists
        (Redis.timelineKey st.pfx name)
        = (List.range (n + 1)).map (Redis.keyAt st.pfx name t0) := by
      simp [Redis.runState, listGet, mapLookup]
    simp only [hlg]
    rw [← List.map_drop]
    have hlen : (((List.range (n + 1)).map (Redis.keyAt st.pfx name t0)).length
        - limit.toNat) = (n + 1) - limit.toNat := by
      simp
    rw [hlen]
    have htn : 1 ≤ limit.toNat := by omega
    rw [if_neg ?_]
    · have := filterMap_map_eq_map_filter (Redis.keyAt st.pfx name t0)
        (fun kk => (mapLookup (Redis.runState (π := π) st.pfx name f t0 (n + 1)).kv kk).map
          Prod.fst)
        (Redis.recAt name f t0) (fun _ => true)
        ((List.range (n + 1)).drop ((n + 1) - limit.toNat)) ?_
      · rw [this, List.filter_true]
      · intro x hx
        dsimp only
        have hx1 : x < n + 1 :=
          List.mem_range.mp ((List.drop_sublist _ _).subset hx)
        have hlook : mapLookup (Redis.runState (π := π) st.pfx name f t0 (n + 1)).kv
            (Redis.keyAt st.pfx name t0 x)
            = some (Redis.recAt name f t0 x, Redis.DefaultConfig.EventTTL) :=
          mapLookup_map_range (Redis.keyAt st.pfx name t0)
            (fun i => (Redis.recAt name f t0 i, Redis.DefaultConfig.EventTTL))
            (Redis.keyAt_inj st.pfx name t0) (n + 1) x hx1
        rw [hlook]
        simp
    · rw [List.isEmpty_iff]
      intro hc
      have := congrArg List.length hc
      simp at this
      omega

/-- C5: the relational backend's per-write trim enforces the retention cap: on
a fresh table, after storing `1000 + 1 + j` events for one name (the cap is
the backend's operative maximum per type, the package default 1000; trimming
runs inside every `StoreEvent` call), exactly 1000 rows remain for that name,
and they are precisely the most recent 1000 by `created_at` (the rows of the
last 1000 insertions, which `ORDER BY created_at DESC` returns newest first). -/
theorem pg_trim_caps_rows (π : Type) (st : Postgres.EventStore) (name : String)
    (f : Nat → π) (t0 j : Nat) :
    ((Postgres.storeMany st (Postgres.emptyState t0)
        ((List.range (1000 + 1 + j)).map (fun i => ⟨name, f i⟩))).table.filter
        (fun r => r.event_name == name)
      = ((List.range (1000 + 1 + j)).drop (j + 1)).map (Postgres.rowAt name f t0))
    ∧ ((Postgres.storeMany st (Postgres.emptyState t0)
        ((List.range (1000 + 1 + j)).map (fun i => ⟨name, f i⟩))).table.filter
        (fun r => r.event_name == name)).length = 1000 := by
  have hrun := Postgres.storeMany_table st name f t0 (1000 + 1 + j)
  have harith : 1000 + 1 + j - 1000 = j + 1 := by omega
  rw [hrun, harith]
  have hfilter : (((List.range (1000 + 1 + j)).drop (j + 1)).map
      (Postgres.rowAt name f t0)).filter (fun r => r.event_name == name)
      = ((List.range (1000 + 1 + j)).drop (j + 1)).map (Postgres.rowAt name f t0) := by
    rw [List.filter_eq_self]
    intro r hr
    obtain ⟨i, _, rfl⟩ := List.mem_map.mp hr
    simp [Postgres.rowAt]
  refine ⟨hfilter, ?_⟩
  rw [hfilter]
  simp
  omega

/-- C6: the Redis read path tolerates timeline entries whose backing key is
gone. After any run of `k` stores for a name, if the per-event keys of an
arbitrary set `E` of those stores have expired (while their timeline entries
remain), `GetEvents` skips exactly the expired entries and returns the
remaining decoded records — it never fails the whole read. -/
theorem redis_getEvents_skips_expired (π : Type) (st : Redis.EventStore)
    (name : String) (f : Nat → π) (t0 k : Nat) (E : List Nat) :
    Redis.EventStore.GetEvents st
      (Redis.expireKeys
        (Redis.storeMany st (Redis.emptyState t0)
          ((List.range k).map (fun i => ⟨name, f i⟩)))
        (E.map (Redis.keyAt st.pfx name t0)))
      name (k : Int)
    = .ok (((List.range k).filter (fun j => !(E.contains j))).map
        (Redis.recAt name f t0)) := by
  rw [Redis.storeMany_keyspace]
  exact Redis.getEvents_expired st name f t0 k E

theorem redis_clear_parts (st : Redis.EventStore) (s : Redis.RedisState π)
    (name : String) (limit : Int) :
    (Redis.EventStore.ClearEvents st s name).2 = none
    ∧ Redis.EventStore.GetEvents st (Redis.EventStore.ClearEvents st s name).1
        name limit = .ok []
    ∧ Redis.EventStore.ClearEvents st (Redis.EventStore.ClearEvents st s name).1 name
        = ((Redis.EventStore.ClearEvents st s name).1, none) := by
  by_cases hk : (listGet s.lists (Redis.timelineKey st.pfx name)).isEmpty
  · have hclear : Redis.EventStore.ClearEvents st s name = (s, none) := by
      simp only [Redis.EventStore.ClearEvents, if_pos hk]
    have hnil : listGet s.lists (Redis.timelineKey st.pfx name) = [] :=
      List.isEmpty_iff.mp hk
    refine ⟨by rw [hclear], ?_, ?_⟩
    · rw [hclear]
      simp [Redis.EventStore.GetEvents, hnil]
    · rw [hclear, hclear]
  · have hclear : Redis.EventStore.ClearEvents st s name
        = (⟨(listGet s.lists (Redis.timelineKey st.pfx name)).foldl
              (fun kv k => mapErase kv k) s.kv,
            mapErase s.lists (Redis.timelineKey st.pfx name), s.now⟩, none) := by
      simp only [Redis.EventStore.ClearEvents, if_neg hk]
    have hlg : listGet (mapErase s.lists (Redis.timelineKey st.pfx name))
        (Redis.timelineKey st.pfx name) = [] := by
      simp [listGet, mapErase_lookup]
    refine ⟨by rw [hclear], ?_, ?_⟩
    · rw [hclear]
      simp [Redis.EventStore.GetEvents, hlg]
    · rw [hclear]
      simp only [Redis.EventStore.ClearEvents, hlg]
      rfl

theorem pg_clear_parts (st : Postgres.EventStore) (s : Postgres.PgState π)
    (name : String) (limit : Int) :
    (Postgres.EventStore.ClearEvents st s name).2 = none
    ∧ Postgres.EventStore.GetEvents st (Postgres.EventStore.ClearEvents st s name).1
        name limit = .ok []
    ∧ Postgres.EventStore.ClearEvents st (Postgres.EventStore.ClearEvents st s name).1
        name = ((Postgres.EventStore.ClearEvents st s name).1, none) := by
  refine ⟨rfl, ?_, ?_⟩
  · have hfil : ((s.table.filter (fun r => !(r.event_name == name))).filter
        (fun r => r.event_name == name)) = [] := by
      rw [List.filter_eq_nil_iff]
      intro r hr
      have := (List.mem_filter.mp hr).2
      simp at this
      simp [this]
    simp [Postgres.EventStore.GetEvents, Postgres.EventStore.ClearEvents,
      Postgres.selectDesc, hfil]
  · have hidem : ((s.table.filter (fun r => !(r.event_name == name))).filter
        (fun r => !(r.event_name == name)))
        = s.table.filter (fun r => !(r.event_name == name)) := by
      rw [List.filter_eq_self]
      intro r hr
      exact (List.mem_filter.mp hr).2
    simp only [Postgres.EventStore.ClearEvents, hidem]

/-- C8: for both backends and every state and name, `clear_events` succeeds and
deletes all records for the name — a subsequent `get_events` with any limit
returns the empty sequence — and it is idempotent: clearing again (a topic now
empty or absent) succeeds and leaves the state unchanged; in particular
clearing succeeds on every state, including one with nothing stored. -/
theorem clear_events_complete_and_idempotent (π : Type) (stR : Redis.EventStore)
    (stP : Postgres.EventStore) (name : String) (limit : Int)
    (sR : Redis.RedisState π) (sP : Postgres.PgState π) :
    ((Redis.EventStore.ClearEvents stR sR name).2 = none
      ∧ Redis.EventStore.GetEvents stR (Redis.EventStore.ClearEvents stR sR name).1
          name limit = .ok []
      ∧ Redis.EventStore.ClearEvents stR
          (Redis.EventStore.ClearEvents stR sR name).1 name
        = ((Redis.EventStore.ClearEvents stR sR name).1, none))
    ∧ ((Postgres.EventStore.ClearEvents stP sP name).2 = none
      ∧ Postgres.EventStore.GetEvents stP
          (Postgres.EventStore.ClearEvents stP sP name).1 name limit = .ok []
      ∧ Postgres.EventStore.ClearEvents stP
          (Postgres.EventStore.ClearEvents stP sP name).1 name
        = ((Postgres.EventStore.ClearEvents stP sP name).1, none)) :=
  ⟨redis_clear_parts stR sR name limit, pg_clear_parts stP sP name limit⟩

/-- C4 (amended): `get_events(name, limit)` returns up to `limit` of the
most-recently-stored records — the relational backend newest-first, the Redis
backend in insertion (oldest-first) timeline order. After storing `j + 2`
events, a limit of `j + 1` returns exactly the most recent `j + 1` records
(for the relational backend within its retention cap), and a limit ≤ 0 falls
back to the package-default maximum-per-type, 1000, for both backends. -/
theorem getEvents_limit_and_order (π : Type) (stR : Redis.EventStore)
    (stP : Postgres.EventStore) (name : String) (f : Nat → π) (t0 : Nat) :
    (∀ j : Nat,
      Redis.EventStore.GetEvents stR
        (Redis.storeMany stR (Redis.emptyState t0)
          ((List.range (j + 2)).map (fun i => ⟨name, f i⟩)))
        name ((j + 1 : Nat) : Int)
      = .ok (((List.range (j + 2)).drop 1).map (Redis.recAt name f t0)))
    ∧ (∀ j : Nat, j + 2 ≤ 1000 →
      Postgres.EventStore.GetEvents stP
        (Postgres.storeMany stP (Postgres.emptyState t0)
          ((List.range (j + 2)).map (fun i => ⟨name, f i⟩)))
        name ((j + 1 : Nat) : Int)
      = .ok ((((List.range (j + 2)).drop 1).reverse).map
          (fun i => (⟨name, f i, t0 + i⟩ : EventRecord π))))
    ∧ (∀ (s : Redis.RedisState π) (nm : String) (n : Nat),
        Redis.EventStore.GetEvents stR s nm (-(n : Int))
          = Redis.EventStore.GetEvents stR s nm 1000)
    ∧ (∀ (s : Postgres.PgState π) (nm : String) (n : Nat),
        Postgres.EventStore.GetEvents stP s nm (-(n : Int))
          = Postgres.EventStore.GetEvents stP s nm 1000) := by
  refine ⟨?_, ?_, ?_, ?_⟩
  · intro j
    rw [Redis.storeMany_keyspace]
    rw [Redis.getEvents_runState stR name f t0 (j + 2) ((j + 1 : Nat) : Int)
      (by exact_mod_cast Nat.succ_pos j)]
    have htn : (((j + 1 : Nat)) : Int).toNat = j + 1 := by simp
    rw [htn]
    have h2 : j + 2 - (j + 1) = 1 := by omega
    rw [h2]
  · intro j hj
    rw [Postgres.storeMany_table]
    have h0 : j + 2 - 1000 = 0 := by omega
    rw [h0, List.drop_zero]
    unfold Postgres.EventStore.GetEvents
    dsimp only
    rw [if_neg (by exact_mod_cast Nat.not_succ_le_zero j :
      ¬ (((j + 1 : Nat) : Int) ≤ 0))]
    have hsel : Postgres.selectDesc
        ((List.range (j + 2)).map (Postgres.rowAt name f t0)) name
        = ((List.range (j + 2)).map (Postgres.rowAt name f t0)).reverse := by
      apply selectDesc_ascending
      · intro r hr
        obtain ⟨i, _, rfl⟩ := List.mem_map.mp hr
        rfl
      · rw [List.pairwise_map]
        exact (List.pairwise_lt_range _).imp
          (fun h => by simpa [Postgres.rowAt] using h)
    rw [hsel]
    have htn : (((j + 1 : Nat)) : Int).toNat = j + 1 := by simp
    rw [htn, List.take_reverse]
    have hlen2 : ((List.range (j + 2)).map (Postgres.rowAt name f t0)).length
        - (j + 1) = 1 := by simp
    rw [hlen2, ← List.map_drop, ← List.map_reverse, List.map_map]
    rfl
  · intro s nm n
    unfold Redis.EventStore.GetEvents
    dsimp only
    rw [if_pos (by omega : (-(n : Int)) ≤ 0),
      if_neg (by norm_num : ¬ ((1000 : Int) ≤ 0))]
    rfl
  · intro s nm n
    unfold Postgres.EventStore.GetEvents
    dsimp only
    rw [if_pos (by omega : (-(n : Int)) ≤ 0),
      if_neg (by norm_num : ¬ ((1000 : Int) ≤ 0))]
    rfl

/-- Witness for C4: a concrete relational-backend run inside the cap — two
stores, limit 1 — returning the single most recent record. -/
theorem getEvents_limit_and_order_witness :
    Postgres.EventStore.GetEvents (⟨"t"⟩ : Postgres.EventStore)
        (Postgres.storeMany (π := Nat) ⟨"t"⟩ (Postgres.emptyState 0)
          ((List.range 2).map (fun i => ⟨"n", i⟩)))
        "n" ((1 : Nat) : Int)
      = .ok ((((List.range 2).drop 1).reverse).map
          (fun i => (⟨"n", i, 0 + i⟩ : EventRecord Nat))) :=
  (getEvents_limit_and_order Nat ⟨"p"⟩ ⟨"t"⟩ "n" (fun i => i) 0).2.1 0 (by norm_num)

/-- `GetEvents` on a run of `k ≤ 1000` stores when the effective limit covers
the whole run: all records, newest first. -/
theorem Postgres.getEvents_run (st : Postgres.EventStore) (name : String)
    (f : Nat → π) (t0 k : Nat) (limit : Int) (hk : k ≤ 1000)
    (hlim : k ≤ (if limit ≤ 0 then Postgres.DefaultConfig.MaxEventsPerType
      else limit).toNat) :
    Postgres.EventStore.GetEvents st
      (Postgres.storeMany st (Postgres.emptyState t0)
        ((List.range k).map (fun i => ⟨name, f i⟩)))
      name limit
    = .ok (((List.range k).reverse).map
        (fun i => (⟨name, f i, t0 + i⟩ : EventRecord π))) := by
  rw [Postgres.storeMany_table]
  have h0 : k - 1000 = 0 := by omega
  rw [h0, List.drop_zero]
  unfold Postgres.EventStore.GetEvents
  dsimp only
  have hsel : Postgres.selectDesc
      ((List.range k).map (Postgres.rowAt name f t0)) name
      = ((List.range k).map (Postgres.rowAt name f t0)).reverse := by
    apply selectDesc_ascending
    · intro r hr
      obtain ⟨i, _, rfl⟩ := List.mem_map.mp hr
      rfl
    · rw [List.pairwise_map]
      exact (List.pairwise_lt_range _).imp
        (fun h => by simpa [Postgres.rowAt] using h)
  rw [hsel, List.take_of_length_le (by simpa using hlim),
    ← List.map_reverse, List.map_map]
  rfl

/-- Counterexample for C4 as stated: (i) after three Redis stores, a limit-2
read returns the two most recent records oldest-first — the head is the older
of the two, not the newest, so the order is not newest-first; (ii) on the
relational backend, storing k = 1 event and reading with limit k - 1 = 0
returns one record, not zero, because limit ≤ 0 falls back to the default cap;
(iii) that fallback is the package default 1000, not the configured
maximum-per-type (here 2): three records come back. -/
theorem getEvents_newest_first_counterexample :
    (Redis.EventStore.GetEvents (⟨"p"⟩ : Redis.EventStore)
        (Redis.storeMany (π := Nat) ⟨"p"⟩ (Redis.emptyState 0)
          [⟨"n", 0⟩, ⟨"n", 1⟩, ⟨"n", 2⟩]) "n" 2
      = .ok [⟨"n", 1, 1⟩, ⟨"n", 2, 2⟩])
    ∧ ((⟨"n", 1, 1⟩ : EventRecord Nat) ≠ ⟨"n", 2, 2⟩)
    ∧ (Postgres.EventStore.GetEvents (⟨"t"⟩ : Postgres.EventStore)
        (Postgres.storeMany (π := Nat) ⟨"t"⟩ (Postgres.emptyState 0)
          ((List.range 1).map (fun i => ⟨"n", i⟩))) "n" 0
      = .ok [⟨"n", 0, 0⟩])
    ∧ (Redis.EventStore.GetEvents (Redis.NewEventStore ⟨"p", 5, 2⟩)
        (Redis.storeMany (π := Nat) (Redis.NewEventStore ⟨"p", 5, 2⟩)
          (Redis.emptyState 0) [⟨"n", 0⟩, ⟨"n", 1⟩, ⟨"n", 2⟩]) "n" 0
      = .ok [⟨"n", 0, 0⟩, ⟨"n", 1, 1⟩, ⟨"n", 2, 2⟩]) := by
  refine ⟨by rfl, by decide, ?_, by rfl⟩
  rw [Postgres.getEvents_run (⟨"t"⟩ : Postgres.EventStore) "n" (fun i => i) 0 1 0
    (by norm_num) (by decide)]
  rfl

/-- C7 (amended): of the recognized configuration options, only `prefix` takes
effect (an empty prefix falls back to the package default). The configured
`event_ttl` and `max_events_per_type` are discarded by both constructors:
stores with equal prefixes are identical regardless of the other options,
every stored Redis key carries the package-default 24h TTL, and the limit ≤ 0
fallback is the package-default 1000 on both backends. -/
theorem config_only_prefix_takes_effect (π : Type) (cfgR : Redis.Config)
    (cfgP : Postgres.Config) :
    ((Redis.NewEventStore cfgR).pfx
        = (if cfgR.pfx = "" then "mediator:events" else cfgR.pfx))
    ∧ ((Postgres.NewEventStore cfgP).pfx
        = (if cfgP.pfx = "" then "mediator_events" else cfgP.pfx))
    ∧ (∀ cfg2 : Redis.Config, cfgR.pfx = cfg2.pfx →
        Redis.NewEventStore cfgR = Redis.NewEventStore cfg2)
    ∧ (∀ cfg2 : Postgres.Config, cfgP.pfx = cfg2.pfx →
        Postgres.NewEventStore cfgP = Postgres.NewEventStore cfg2)
    ∧ (∀ (s : Redis.RedisState π) (e : Event π),
        mapLookup ((Redis.EventStore.StoreEvent (Redis.NewEventStore cfgR) s e).1).kv
            (Redis.tsKey (Redis.NewEventStore cfgR).pfx e.name s.now)
          = some (⟨e.name, e.payload, s.now⟩, Redis.DefaultConfig.EventTTL))
    ∧ (∀ (s : Redis.RedisState π) (nm : String) (n : Nat),
        Redis.EventStore.GetEvents (Redis.NewEventStore cfgR) s nm (-(n : Int))
          = Redis.EventStore.GetEvents (Redis.NewEventStore cfgR) s nm 1000)
    ∧ (∀ (s : Postgres.PgState π) (nm : String) (n : Nat),
        Postgres.EventStore.GetEvents (Postgres.NewEventStore cfgP) s nm (-(n : Int))
          = Postgres.EventStore.GetEvents (Postgres.NewEventStore cfgP) s nm 1000) := by
  refine ⟨rfl, rfl, ?_, ?_, ?_, ?_, ?_⟩
  · intro cfg2 h
    unfold Redis.NewEventStore
    rw [h]
  · intro cfg2 h
    unfold Postgres.NewEventStore
    rw [h]
  · intro s e
    exact mapLookup_mapSet_self s.kv _ _
  · intro s nm n
    unfold Redis.EventStore.GetEvents
    dsimp only
    rw [if_pos (by omega : (-(n : Int)) ≤ 0),
      if_neg (by norm_num : ¬ ((1000 : Int) ≤ 0))]
    rfl
  · intro s nm n
    unfold Postgres.EventStore.GetEvents
    dsimp only
    rw [if_pos (by omega : (-(n : Int)) ≤ 0),
      if_neg (by norm_num : ¬ ((1000 : Int) ≤ 0))]
    rfl

/-- Witness for C7: stores built from configurations that differ in every
option except the prefix are identical. -/
theorem config_only_prefix_takes_effect_witness :
    Redis.NewEventStore ⟨"p", 5, 2⟩ = Redis.NewEventStore ⟨"p", 999, 7⟩
    ∧ Postgres.NewEventStore ⟨"t", 2⟩ = Postgres.NewEventStore ⟨"t", 888⟩ :=
  ⟨(config_only_prefix_takes_effect Unit ⟨"p", 5, 2⟩ ⟨"t", 2⟩).2.2.1 ⟨"p", 999, 7⟩ rfl,
   (config_only_prefix_takes_effect Unit ⟨"p", 5, 2⟩ ⟨"t", 2⟩).2.2.2.1 ⟨"t", 888⟩ rfl⟩

/-- Counterexample for C7 as stated: with `event_ttl` configured to 5ns and
`max_events_per_type` to 2, the stored key still carries the package-default
24h TTL (86400000000000ns ≠ 5ns), and after three stores the relational table
still holds 3 rows (> the configured cap of 2) while the Redis fallback read
returns 3 records (> the configured 2). -/
theorem config_ignored_counterexample :
    (mapLookup ((Redis.EventStore.StoreEvent (Redis.NewEventStore ⟨"p", 5, 2⟩)
          (Redis.emptyState (π := Nat) 0) ⟨"n", 0⟩).1).kv
        (Redis.tsKey "p" "n" 0)
      = some (⟨"n", 0, 0⟩, 86400000000000))
    ∧ ((86400000000000 : Nat) ≠ 5)
    ∧ ((Postgres.storeMany (π := Nat) (Postgres.NewEventStore ⟨"t", 2⟩)
        (Postgres.emptyState 0)
        ((List.range 3).map (fun i => ⟨"n", i⟩))).table.length = 3)
    ∧ ((3 : Nat) ≠ 2)
    ∧ (Redis.EventStore.GetEvents (Redis.NewEventStore ⟨"p", 5, 2⟩)
        (Redis.storeMany (π := Nat) (Redis.NewEventStore ⟨"p", 5, 2⟩)
          (Redis.emptyState 0) [⟨"n", 0⟩, ⟨"n", 1⟩, ⟨"n", 2⟩]) "n" 0
      = .ok [⟨"n", 0, 0⟩, ⟨"n", 1, 1⟩, ⟨"n", 2, 2⟩]) := by
  refine ⟨by rfl, by decide, ?_, by decide, by rfl⟩
  rw [Postgres.storeMany_table]
  rfl

example : (Mediator.Publish (σ := Unit) (π := Unit) ⟨[], none⟩ () ⟨"a", ()⟩).2
    = some "no handlers for event: a" := by decide

example :
    (Mediator.Publish (σ := Unit) (π := Unit)
      ⟨[("a", [fun s _ => (s, some "boom"), fun s _ => (s, none)])], none⟩ () ⟨"a", ()⟩).2
    = some "errors in event handlers: [boom]" := by decide
